import Mathlib

/-!
Shallow embedding of the argon2themax library (src/src/index.ts) and proofs
about its calibration engine, selection engine and orchestrator.

The source file contains two versions of the library, separated by a marker;
the first (current) version is the authority.  The second (older) version
differs in the `select` fallback branch, which is modelled separately below
as `selectV2`.

Conventions of the embedding:
- Elapsed times (`computeTimeMs`) are wall-clock measurements; how long a
  hash takes is an input of the model (a stream `times : Nat -> Nat`), so
  every claim quantifies over all possible measured durations.  Times and
  budgets are modelled as `Nat`; every property proved here is purely
  order-theoretic in these values.
- `Options` keeps the three fields the calibration engine mutates or reads
  (`timeCost`, `memoryCost`, `parallelism`); `hashLength`, `type` and `raw`
  are never touched by the algorithms under study.
- Environment-derived constants (cpu count, total RAM, the argon2 library's
  `limits` and `defaults`) are gathered in `CalibEnv` and quantified over.
- lodash `_.sortBy` / `_.orderBy` perform stable ascending sorts by the
  listed keys; they are modelled with `List.mergeSort`, which is the stable
  sort of the Lean library, applied to the corresponding boolean key order.
- JS exceptions are modelled with `Except String`.
-/

namespace Argon2TheMax

/-- The mutable option fields of the library's `Options` record
(src/src/index.ts, `Options`). -/
structure Options where
  timeCost : Nat
  memoryCost : Nat
  parallelism : Nat
deriving Repr, DecidableEq

/-- One measurement: `Measurement.Timing` (src/src/index.ts). -/
structure Timing where
  options : Options
  computeTimeMs : Nat
  hashCost : Nat
deriving Repr, DecidableEq

/-- `Measurement.TimingResult`: the sample series of one calibration run. -/
structure TimingResult where
  timings : List Timing
deriving Repr, DecidableEq

namespace Selection

/-- Key order used by `MaxCostSelectionStrategy.getSortedTimings`:
`_.orderBy(timings, ["hashCost", "computeTimeMs"], ["asc", "asc"])`,
i.e. ascending lexicographic comparison of (hashCost, computeTimeMs). -/
def maxCostLe (a b : Timing) : Prop :=
  a.hashCost < b.hashCost ∨
    (a.hashCost = b.hashCost ∧ a.computeTimeMs ≤ b.computeTimeMs)

instance : DecidableRel maxCostLe := fun a b =>
  inferInstanceAs (Decidable (a.hashCost < b.hashCost ∨
    (a.hashCost = b.hashCost ∧ a.computeTimeMs ≤ b.computeTimeMs)))

/-- Key order used by `ClosestMatchSelectionStrategy.getSortedTimings` and by
the fastest/slowest computation: `_.sortBy(timings, "computeTimeMs")`. -/
def timeLe (a b : Timing) : Prop :=
  a.computeTimeMs ≤ b.computeTimeMs

instance : DecidableRel timeLe := fun a b =>
  inferInstanceAs (Decidable (a.computeTimeMs ≤ b.computeTimeMs))

/-- `MaxCostSelectionStrategy.getSortedTimings`.  lodash orderBy is a stable
ascending sort; it is modelled by the stable `List.insertionSort`. -/
def MaxCostSelectionStrategy.getSortedTimings (timings : List Timing) : List Timing :=
  timings.insertionSort maxCostLe

/-- `ClosestMatchSelectionStrategy.getSortedTimings` (stable ascending sort
by computeTimeMs only). -/
def ClosestMatchSelectionStrategy.getSortedTimings (timings : List Timing) : List Timing :=
  timings.insertionSort timeLe

/-- The instance state a `LinearSelectionStrategy` holds after its
initialization: the ranked ordering, the per-budget memo cache, and the
cached extreme samples (which start out undefined, hence `Option`). -/
structure SelState where
  sortedTimings : List Timing
  timingsCache : List (Nat × Timing)
  fastestTiming : Option Timing
  slowestTiming : Option Timing
deriving Repr, DecidableEq

/-- lodash `_.findLast(l, p)`: the last element of `l` satisfying `p`. -/
def findLast (p : Timing → Bool) (l : List Timing) : Option Timing :=
  l.reverse.find? p

/-- `LinearSelectionStrategy.initialize` (src/src/index.ts, lines 320-333).
The abstract method `getSortedTimings` is passed as the `getSorted`
parameter.  A missing (`null`/`undefined`) argument is modelled by `none`;
the thrown `Error("Argument error. No timings found.")` by `Except.error`.
Lean's restricted lexer forbids the source method name here, so the
definition is called `init`. -/
def LinearSelectionStrategy.init (getSorted : List Timing → List Timing)
    (timingResults : Option TimingResult) : Except String SelState :=
  match timingResults with
  | none => .error "Argument error. No timings found."
  | some r =>
    if r.timings.length = 0 then
      .error "Argument error. No timings found."
    else
      let computeTimeList := r.timings.insertionSort timeLe
      .ok { sortedTimings := getSorted r.timings
            timingsCache := []
            fastestTiming := computeTimeList.head?
            slowestTiming := computeTimeList.getLast? }

/-- `LinearSelectionStrategy.select` (src/src/index.ts, lines 335-349,
current version): look up the memo cache, otherwise take the last sample of
the ranked ordering whose `computeTimeMs` fits the budget; if none exists,
fall back to `fastest()` (without writing the cache), otherwise memoize and
return.  Returns the chosen timing together with the updated instance
state. -/
def LinearSelectionStrategy.select (st : SelState) (maxTimeMs : Nat) :
    Option Timing × SelState :=
  let timing :=
    match st.timingsCache.lookup maxTimeMs with
    | some t => some t
    | none => findLast (fun t => Nat.ble t.computeTimeMs maxTimeMs) st.sortedTimings
  match timing with
  | none => (st.fastestTiming, st)
  | some t => (some t, { st with timingsCache := (maxTimeMs, t) :: st.timingsCache })

/-- `LinearSelectionStrategy.select` of the second (older) source version
(src/src/index.ts, lines 706-720): identical except that the no-match branch
throws `No timings found with less than {maxTimeMs}ms compute time.` -/
def LinearSelectionStrategy.selectV2 (st : SelState) (maxTimeMs : Nat) :
    Except String (Timing × SelState) :=
  let timing :=
    match st.timingsCache.lookup maxTimeMs with
    | some t => some t
    | none => findLast (fun t => Nat.ble t.computeTimeMs maxTimeMs) st.sortedTimings
  match timing with
  | none => .error ("No timings found with less than " ++ toString maxTimeMs ++
      "ms compute time.")
  | some t => .ok (t, { st with timingsCache := (maxTimeMs, t) :: st.timingsCache })

/-- Concrete sample fixtures used to instantiate the theorems below
(the first three are the scenario series of the specification). -/
def t50 : Timing := ⟨⟨1, 1, 1⟩, 50, 10⟩

def t90 : Timing := ⟨⟨1, 1, 1⟩, 90, 40⟩

def t120 : Timing := ⟨⟨1, 1, 1⟩, 120, 80⟩

def tieA : Timing := ⟨⟨1, 1, 1⟩, 5, 7⟩

def tieB : Timing := ⟨⟨2, 1, 1⟩, 5, 9⟩

def slowB : Timing := ⟨⟨2, 1, 1⟩, 9, 3⟩

end Selection

namespace Measurement

/-- Environment- and library-derived constants that are fixed before a
calibration run starts:
- startTimeCost / startMemoryCost: argon2 `defaults.timeCost` /
  `defaults.memoryCost` (the run's starting options, line 99, 116);
- parallelism: clamp of twice the cpu count into the parallelism limits
  (`onBeforeStart`, lines 173-181);
- memoryCostMax: min(floor(log2(totalmem/1024)), limits.memoryCost.max)
  (the computed memory ceiling, `context.data.memoryCostMax`);
- timeCostLimitMax: `limits.timeCost.max`;
- memoryCostLimitMax: `limits.memoryCost.max`. -/
structure CalibEnv where
  startTimeCost : Nat
  startMemoryCost : Nat
  parallelism : Nat
  memoryCostMax : Nat
  timeCostLimitMax : Nat
  memoryCostLimitMax : Nat
deriving Repr, DecidableEq

/-- The two option fields the strategies mutate during a run. -/
structure OptState where
  memoryCost : Nat
  timeCost : Nat
deriving Repr, DecidableEq

/-- The timing record appended on each loop iteration (lines 135-139):
`hashCost = opts.memoryCost * opts.parallelism * opts.timeCost`. -/
def mkTiming (env : CalibEnv) (o : OptState) (elapsed : Nat) : Timing :=
  { options := { timeCost := o.timeCost, memoryCost := o.memoryCost,
                 parallelism := env.parallelism }
    computeTimeMs := elapsed
    hashCost := o.memoryCost * env.parallelism * o.timeCost }

/-- The measurement loop of `TimingStrategyBase.run` (lines 127-155): append
one sample, consult the status callback, apply the strategy's next options
(stop if it returns false), then the strategy's isDone predicate.  `times i`
is the wall-clock duration of the i-th measured hash (an input of the
model); `fuel` bounds the recursion, and the returned flag is `true` when
the loop ended by one of its own stopping conditions (the termination
theorems show a fuel for which this always happens). -/
def runLoop {σ : Type} (mk : σ → Nat → Timing)
    (statusCallback : Timing → Bool)
    (applyNextOptions : σ → Timing → Bool × σ)
    (isDone : σ → Timing → Bool)
    (times : Nat → Nat) : Nat → Nat → σ → List Timing → List Timing × Bool
  | 0, _, _, acc => (acc, false)
  | fuel + 1, i, st, acc =>
    let lastTiming := mk st (times i)
    let acc' := acc ++ [lastTiming]
    if statusCallback lastTiming = false then (acc', true)
    else
      match applyNextOptions st lastTiming with
      | (false, _) => (acc', true)
      | (true, st') =>
        if isDone st' lastTiming then (acc', true)
        else runLoop mk statusCallback applyNextOptions isDone times fuel (i + 1) st' acc'

namespace MaxMemoryMarchStrategy

/-- `MaxMemoryMarchStrategy.applyNextOptions` (lines 183-196): prefer adding
memory up to the computed ceiling; at the ceiling, reset memoryCost to the
default and add time; at both limits, stop. -/
def applyNextOptions (env : CalibEnv) (o : OptState) : Bool × OptState :=
  if o.memoryCost < env.memoryCostMax then
    (true, { o with memoryCost := o.memoryCost + 1 })
  else if o.timeCost < env.timeCostLimitMax then
    (true, { memoryCost := env.startMemoryCost, timeCost := o.timeCost + 1 })
  else
    (false, o)

/-- A full `run` of `MaxMemoryMarchStrategy`: starts from the defaults,
steps with `applyNextOptions`, stops via the base-class `isDone`
(`lastTiming.computeTimeMs >= maxTimeMs`, lines 161-163). -/
def run (env : CalibEnv) (budget : Nat) (statusCallback : Timing → Bool)
    (times : Nat → Nat) (fuel : Nat) : List Timing × Bool :=
  runLoop (mkTiming env) statusCallback
    (fun o _ => applyNextOptions env o)
    (fun _ t => Nat.ble budget t.computeTimeMs)
    times fuel 0 { memoryCost := env.startMemoryCost, timeCost := env.startTimeCost } []

/-- Decreasing measure for the march: options-space remaining below
(timeCost at its limit, memoryCost at the ceiling). -/
def stepsLeft (env : CalibEnv) (o : OptState) : Nat :=
  (env.timeCostLimitMax - o.timeCost) * (env.memoryCostMax - env.startMemoryCost + 1) +
    (env.memoryCostMax - o.memoryCost)

end MaxMemoryMarchStrategy

namespace ClosestMatchStrategy

/-- The run state of `ClosestMatchStrategy`: the mutated options plus the
policy-private scratch flags `context.data.isDone` / `.lastOvershot`
(lines 210-211). -/
structure CMState where
  opts : OptState
  isDone : Bool
  lastOvershot : Bool
deriving Repr, DecidableEq

/-- `ClosestMatchStrategy.applyNextOptions` (lines 214-245): on overshoot
(computeTimeMs >= budget): stop after two overshoots in a row, otherwise
advance memoryCost (up to `limits.memoryCost.max`) and reset timeCost to the
starting value; under budget: increment timeCost up to its limit. -/
def applyNextOptions (env : CalibEnv) (budget : Nat) (lastTiming : Timing)
    (st : CMState) : Bool × CMState :=
  if budget ≤ lastTiming.computeTimeMs then
    if st.lastOvershot then
      (false, { st with isDone := true })
    else if st.opts.memoryCost < env.memoryCostLimitMax then
      (true, { st with
        opts := { memoryCost := st.opts.memoryCost + 1, timeCost := env.startTimeCost }
        lastOvershot := true })
    else
      (false, { st with isDone := true })
  else
    if st.opts.timeCost < env.timeCostLimitMax then
      (true, { st with
        opts := { st.opts with timeCost := st.opts.timeCost + 1 }
        lastOvershot := false })
    else
      (false, { st with isDone := true, lastOvershot := false })

/-- A full `run` of `ClosestMatchStrategy`: starts from the defaults with
clear scratch flags; its `isDone` override returns `context.data.isDone`
(lines 247-249). -/
def run (env : CalibEnv) (budget : Nat) (statusCallback : Timing → Bool)
    (times : Nat → Nat) (fuel : Nat) : List Timing × Bool :=
  runLoop (fun st e => mkTiming env st.opts e) statusCallback
    (fun st t => applyNextOptions env budget t st)
    (fun st _ => st.isDone)
    times fuel 0
    { opts := { memoryCost := env.startMemoryCost, timeCost := env.startTimeCost }
      isDone := false, lastOvershot := false } []

/-- Decreasing measure for the staircase search. -/
def stepsLeft (env : CalibEnv) (st : CMState) : Nat :=
  (env.memoryCostLimitMax - st.opts.memoryCost) * (env.timeCostLimitMax - env.startTimeCost + 1) +
    (env.timeCostLimitMax - st.opts.timeCost)

/-- Claim-side predicate (wording of claim C4): memory level `level`
overshot on its first timeCost attempt, i.e. the first recorded sample of
the series at that memoryCost has computeTimeMs >= budget. -/
def firstAttemptOvershoot (budget : Nat) (series : List Timing) (level : Nat) : Bool :=
  match series.find? (fun t => t.options.memoryCost == level) with
  | some t => Nat.ble budget t.computeTimeMs
  | none => false

/-- Claim-side predicate (wording of claim C4): two consecutive memory
levels of the series overshot on their first timeCost attempt. -/
def twoConsecutiveFirstAttemptOvershoot (budget : Nat) (series : List Timing) : Bool :=
  series.any (fun t =>
    firstAttemptOvershoot budget series t.options.memoryCost &&
      firstAttemptOvershoot budget series (t.options.memoryCost + 1))

/-- Claim-side predicate (wording of claim C4): some overshooting sample was
measured with memoryCost already at its Limit. -/
def overshootAtMemoryLimit (env : CalibEnv) (budget : Nat) (series : List Timing) : Bool :=
  series.any (fun t =>
    Nat.ble budget t.computeTimeMs && Nat.ble env.memoryCostLimitMax t.options.memoryCost)

/-- Claim-side predicate (wording of claim C4): some sample under budget was
measured with timeCost already at its Limit. -/
def timeLimitWithoutOvershoot (env : CalibEnv) (budget : Nat) (series : List Timing) : Bool :=
  series.any (fun t =>
    Nat.blt t.computeTimeMs budget && Nat.ble env.timeCostLimitMax t.options.timeCost)

end ClosestMatchStrategy

end Measurement

/-- `Measurement.TimingStrategyType` together with the strategies' `name`
fields ("maxmemory", line 171; "closestmatch", line 200). -/
inductive TimingStrategyType
  | MaxMemoryMarch
  | ClosestMatch
deriving Repr, DecidableEq

def TimingStrategyType.name : TimingStrategyType → String
  | .MaxMemoryMarch => "maxmemory"
  | .ClosestMatch => "closestmatch"

/-- `Selection.SelectionStrategyType` together with the strategies' `name`
fields ("maxcost", line 361; "closestmatch", line 371). -/
inductive SelectionStrategyType
  | MaxCost
  | ClosestMatch
deriving Repr, DecidableEq

def SelectionStrategyType.name : SelectionStrategyType → String
  | .MaxCost => "maxcost"
  | .ClosestMatch => "closestmatch"

/-- Dispatch of the abstract `getSortedTimings` method. -/
def SelectionStrategyType.getSortedTimings :
    SelectionStrategyType → List Timing → List Timing
  | .MaxCost => Selection.MaxCostSelectionStrategy.getSortedTimings
  | .ClosestMatch => Selection.ClosestMatchSelectionStrategy.getSortedTimings

/-- `Measurement.generateTimings` with an explicit strategy: dispatches the
run (the merged default timing options carry a status callback that always
returns true, so the orchestrator path passes `fun _ => true`). -/
def generateTimings (strategy : TimingStrategyType) (env : Measurement.CalibEnv)
    (budget : Nat) (statusCallback : Timing → Bool) (times : Nat → Nat)
    (fuel : Nat) : List Timing × Bool :=
  match strategy with
  | .MaxMemoryMarch => Measurement.MaxMemoryMarchStrategy.run env budget statusCallback times fuel
  | .ClosestMatch => Measurement.ClosestMatchStrategy.run env budget statusCallback times fuel

/-- `optionsCacheKey` (lines 401-405). -/
def optionsCacheKey (maxMs : Nat) (timingStrategy selectionStrategy : String) : String :=
  toString maxMs ++ ":" ++ timingStrategy ++ ":" ++ selectionStrategy

/-- `getMaxOptionsWithStrategies` (lines 407-426).  The process-wide
`optionsCache` is threaded explicitly as an association list; the returned
`Nat` counts the calibration measurements the call performed (the length of
the sample series it generated; 0 on a cache hit). -/
def getMaxOptionsWithStrategies (optionsCache : List (String × Options))
    (maxMs : Nat) (timingStrategy : TimingStrategyType)
    (selectionStrategy : SelectionStrategyType) (env : Measurement.CalibEnv)
    (times : Nat → Nat) (fuel : Nat) :
    Except String (Options × List (String × Options) × Nat) :=
  let cacheKey := optionsCacheKey maxMs timingStrategy.name selectionStrategy.name
  match optionsCache.lookup cacheKey with
  | some options => .ok (options, optionsCache, 0)
  | none =>
    let timings := (generateTimings timingStrategy env maxMs (fun _ => true) times fuel).1
    match Selection.LinearSelectionStrategy.init selectionStrategy.getSortedTimings
        (some { timings := timings }) with
    | .error e => .error e
    | .ok st =>
      match (Selection.LinearSelectionStrategy.select st maxMs).1 with
      | none => .error "No timing selected."
      | some selectedTiming =>
        .ok (selectedTiming.options,
          (cacheKey, selectedTiming.options) :: optionsCache, timings.length)

/-! ## Helper lemmas about the selection orders and stable sorting -/

namespace Selection

instance : IsTrans Timing timeLe :=
  ⟨fun _ _ _ h1 h2 => Nat.le_trans h1 h2⟩

instance : IsTotal Timing timeLe :=
  ⟨fun a b => Nat.le_total a.computeTimeMs b.computeTimeMs⟩

instance : IsTrans Timing maxCostLe :=
  ⟨fun a b c h1 h2 => by
    unfold maxCostLe at h1 h2 ⊢
    omega⟩

instance : IsTotal Timing maxCostLe :=
  ⟨fun a b => by
    unfold maxCostLe
    omega⟩

theorem maxCostLe_hashCost {a b : Timing} (h : maxCostLe a b) :
    a.hashCost ≤ b.hashCost := by
  unfold maxCostLe at h
  omega

theorem timeLe_computeTimeMs {a b : Timing} (h : timeLe a b) :
    a.computeTimeMs ≤ b.computeTimeMs := h

/-- Characterization of lodash findLast on a list sorted by `le`: the found
element satisfies the predicate, belongs to the list, and every other
element that satisfies the predicate is `le`-below it. -/
theorem findLast_spec (le : Timing → Timing → Prop) (p : Timing → Bool)
    {l : List Timing} {f : Timing}
    (hp : List.Pairwise le l)
    (h : findLast p l = some f) :
    p f = true ∧ f ∈ l ∧ ∀ y ∈ l, p y = true → y = f ∨ le y f := by
  unfold findLast at h
  rw [List.find?_eq_some] at h
  obtain ⟨hpf, as, bs, hsplit, hnot⟩ := h
  have hl : l = bs.reverse ++ f :: as.reverse := by
    have h2 := congrArg List.reverse hsplit
    simp only [List.reverse_reverse, List.reverse_append, List.reverse_cons] at h2
    simpa [List.append_assoc] using h2
  refine ⟨hpf, ?_, ?_⟩
  · rw [hl]
    exact List.mem_append.mpr (Or.inr (List.mem_cons_self _ _))
  · intro y hy hpy
    rw [hl] at hy hp
    rcases List.mem_append.mp hy with hyb | hyf
    · rcases List.pairwise_append.mp hp with ⟨_, _, hrel⟩
      exact Or.inr (hrel y hyb f (List.mem_cons_self _ _))
    · rcases List.mem_cons.mp hyf with rfl | hyas
      · exact Or.inl rfl
      · have hfalse := hnot y (List.mem_reverse.mp hyas)
        simp only [Bool.not_eq_true'] at hfalse
        rw [hfalse] at hpy
        exact absurd hpy (by simp)

/-- If some element satisfies the predicate, findLast finds one. -/
theorem findLast_isSome (p : Timing → Bool) {l : List Timing} {x : Timing}
    (hx : x ∈ l) (hpx : p x = true) : ∃ f, findLast p l = some f := by
  unfold findLast
  have hxr : x ∈ l.reverse := List.mem_reverse.mpr hx
  rcases hf : l.reverse.find? p with _ | f
  · rw [List.find?_eq_none] at hf
    exact absurd hpx (hf x hxr)
  · exact ⟨f, rfl⟩

/-- If no element satisfies the predicate, findLast finds nothing. -/
theorem findLast_eq_none (p : Timing → Bool) {l : List Timing}
    (h : ∀ x ∈ l, p x = false) : findLast p l = none := by
  unfold findLast
  rw [List.find?_eq_none]
  intro x hx
  simp [h x (List.mem_reverse.mp hx)]

/-- Stability of the model's sort: filtering by a predicate that pins down
one `le`-equivalence class commutes with sorting, i.e. tied elements come
out in their original order. -/
theorem filter_insertionSort_key (le : Timing → Timing → Prop) [DecidableRel le]
    (p : Timing → Bool)
    (hkey : ∀ a b : Timing, p a = true → p b = true → le a b)
    (l : List Timing) :
    (l.insertionSort le).filter p = l.filter p := by
  have hpair : List.Pairwise le (l.filter p) :=
    List.pairwise_of_forall_mem_list fun a ha b hb =>
      hkey a b (List.of_mem_filter ha) (List.of_mem_filter hb)
  have hstab : (l.filter p).Sublist (l.insertionSort le) :=
    List.sublist_insertionSort hpair (List.filter_sublist l)
  have hsub2 : (l.filter p).Sublist ((l.insertionSort le).filter p) := by
    have hfil := List.Sublist.filter p hstab
    rwa [List.filter_eq_self.mpr (fun a ha => List.of_mem_filter ha)] at hfil
  have hlen : ((l.insertionSort le).filter p).length = (l.filter p).length :=
    (List.Perm.filter p (List.perm_insertionSort le l)).length_eq
  exact (hsub2.eq_of_length hlen.symm).symm

/-- The head of the time-sorted list is a global minimum by computeTimeMs
and, among the samples tied for that minimum, the earliest one of the
original list. -/
theorem head_insertionSort_timeLe {l : List Timing} {f : Timing}
    (h : (l.insertionSort timeLe).head? = some f) :
    (∀ y ∈ l, f.computeTimeMs ≤ y.computeTimeMs) ∧
      (l.filter (fun y => y.computeTimeMs == f.computeTimeMs)).head? = some f := by
  obtain ⟨rest, hs⟩ := List.head?_eq_some_iff.mp h
  have hpair : List.Pairwise timeLe (l.insertionSort timeLe) :=
    List.sorted_insertionSort timeLe l
  have hmin : ∀ y ∈ l, f.computeTimeMs ≤ y.computeTimeMs := by
    intro y hy
    have hy' : y ∈ l.insertionSort timeLe := (List.mem_insertionSort timeLe).mpr hy
    rw [hs] at hy' hpair
    rcases List.mem_cons.mp hy' with rfl | hyr
    · exact Nat.le_refl _
    · exact timeLe_computeTimeMs ((List.pairwise_cons.mp hpair).1 y hyr)
  refine ⟨hmin, ?_⟩
  have hfil := filter_insertionSort_key timeLe
    (fun y => y.computeTimeMs == f.computeTimeMs)
    (fun a b ha hb => by
      simp only [Nat.beq_eq_true_eq] at ha hb
      unfold timeLe
      omega)
    l
  rw [← hfil, hs]
  simp

/-- The last element of the time-sorted list is a global maximum by
computeTimeMs and, among the samples tied for that maximum, the latest one
of the original list. -/
theorem getLast_insertionSort_timeLe {l : List Timing} {s : Timing}
    (h : (l.insertionSort timeLe).getLast? = some s) :
    (∀ y ∈ l, y.computeTimeMs ≤ s.computeTimeMs) ∧
      (l.filter (fun y => y.computeTimeMs == s.computeTimeMs)).getLast? = some s := by
  rw [List.getLast?_eq_head?_reverse] at h
  obtain ⟨rest, hs⟩ := List.head?_eq_some_iff.mp h
  have hpair : List.Pairwise timeLe (l.insertionSort timeLe) :=
    List.sorted_insertionSort timeLe l
  have hpairrev : List.Pairwise (fun a b => timeLe b a)
      ((l.insertionSort timeLe).reverse) := List.pairwise_reverse.mpr hpair
  have hmax : ∀ y ∈ l, y.computeTimeMs ≤ s.computeTimeMs := by
    intro y hy
    have hy' : y ∈ (l.insertionSort timeLe).reverse := by
      rw [List.mem_reverse]
      exact (List.mem_insertionSort timeLe).mpr hy
    rw [hs] at hy' hpairrev
    rcases List.mem_cons.mp hy' with rfl | hyr
    · exact Nat.le_refl _
    · exact timeLe_computeTimeMs ((List.pairwise_cons.mp hpairrev).1 y hyr)
  refine ⟨hmax, ?_⟩
  have hfil := filter_insertionSort_key timeLe
    (fun y => y.computeTimeMs == s.computeTimeMs)
    (fun a b ha hb => by
      simp only [Nat.beq_eq_true_eq] at ha hb
      unfold timeLe
      omega)
    l
  rw [← hfil, List.getLast?_eq_head?_reverse, ← List.filter_reverse, hs]
  simp

end Selection

/-! ## Helper lemmas about the calibration loop -/

namespace Measurement

/-- Each loop iteration appends one sample, so the result extends the
accumulator. -/
theorem runLoop_length_mono {σ : Type} (mk : σ → Nat → Timing) (cb : Timing → Bool)
    (step : σ → Timing → Bool × σ) (done : σ → Timing → Bool) (times : Nat → Nat) :
    ∀ fuel i st acc, acc.length ≤ (runLoop mk cb step done times fuel i st acc).1.length := by
  intro fuel
  induction fuel with
  | zero => intro i st acc; exact Nat.le_refl _
  | succ n ih =>
    intro i st acc
    simp only [runLoop]
    split
    · simp
    · split
      · simp
      · split
        · simp
        · exact Nat.le_trans (by simp) (ih (i + 1) _ (acc ++ [mk st (times i)]))

/-- With at least one unit of fuel, the loop records at least one sample
before consulting any of its stopping conditions. -/
theorem runLoop_nonempty {σ : Type} (mk : σ → Nat → Timing) (cb : Timing → Bool)
    (step : σ → Timing → Bool × σ) (done : σ → Timing → Bool) (times : Nat → Nat)
    (fuel i : Nat) (st : σ) (h : 1 ≤ fuel) :
    1 ≤ (runLoop mk cb step done times fuel i st []).1.length := by
  cases fuel with
  | zero => exact absurd h (by omega)
  | succ n =>
    simp only [runLoop]
    split
    · simp
    · split
      · simp
      · next st' heq =>
        split
        · simp
        · have hmono := runLoop_length_mono mk cb step done times n (i + 1) st'
            ([] ++ [mk st (times i)])
          simp only [List.nil_append, List.length_cons, List.length_nil] at hmono
          simpa only [List.nil_append] using hmono

/-- If every continuing step strictly decreases a measure, the loop ends by
its own stopping conditions (not by fuel exhaustion) whenever the fuel
exceeds the starting measure, having recorded at most measure + 1 samples. -/
theorem runLoop_completes {σ : Type} (mk : σ → Nat → Timing) (cb : Timing → Bool)
    (step : σ → Timing → Bool × σ) (done : σ → Timing → Bool) (μ : σ → Nat)
    (hdec : ∀ st t st', step st t = (true, st') → μ st' < μ st) (times : Nat → Nat) :
    ∀ fuel i st acc, μ st < fuel →
      (runLoop mk cb step done times fuel i st acc).2 = true ∧
      (runLoop mk cb step done times fuel i st acc).1.length ≤ acc.length + μ st + 1 := by
  intro fuel
  induction fuel with
  | zero => intro i st acc h; exact absurd h (Nat.not_lt_zero _)
  | succ n ih =>
    intro i st acc h
    simp only [runLoop]
    split
    · refine ⟨rfl, ?_⟩
      simp only [List.length_append, List.length_cons, List.length_nil]
      omega
    · split
      · refine ⟨rfl, ?_⟩
        simp only [List.length_append, List.length_cons, List.length_nil]
        omega
      · next st' heq =>
        split
        · refine ⟨rfl, ?_⟩
          simp only [List.length_append, List.length_cons, List.length_nil]
          omega
        · have hμ := hdec _ _ _ heq
          have hrec := ih (i + 1) st' (acc ++ [mk st (times i)]) (by omega)
          refine ⟨hrec.1, ?_⟩
          have hlen := hrec.2
          simp only [List.length_append, List.length_cons, List.length_nil] at hlen
          omega

namespace MaxMemoryMarchStrategy

/-- Below the ceiling, the march adds memory. -/
theorem applyNextOptions_inc_memory (env : CalibEnv) (o : OptState)
    (h : o.memoryCost < env.memoryCostMax) :
    applyNextOptions env o = (true, ⟨o.memoryCost + 1, o.timeCost⟩) := by
  unfold applyNextOptions
  rw [if_pos h]

/-- At the ceiling and below the time limit, the march resets memoryCost to
the default and adds time. -/
theorem applyNextOptions_inc_time (env : CalibEnv) (o : OptState)
    (h1 : env.memoryCostMax ≤ o.memoryCost) (h2 : o.timeCost < env.timeCostLimitMax) :
    applyNextOptions env o = (true, ⟨env.startMemoryCost, o.timeCost + 1⟩) := by
  unfold applyNextOptions
  rw [if_neg (by omega), if_pos h2]

/-- At both limits, the march stops. -/
theorem applyNextOptions_exhausted (env : CalibEnv) (o : OptState)
    (h1 : env.memoryCostMax ≤ o.memoryCost) (h2 : env.timeCostLimitMax ≤ o.timeCost) :
    applyNextOptions env o = (false, o) := by
  unfold applyNextOptions
  rw [if_neg (by omega), if_neg (by omega)]

/-- Every continuing step of the march strictly decreases `stepsLeft`. -/
theorem applyNextOptions_decreases (env : CalibEnv) (o o' : OptState)
    (h : applyNextOptions env o = (true, o')) :
    stepsLeft env o' < stepsLeft env o := by
  by_cases h1 : o.memoryCost < env.memoryCostMax
  · rw [applyNextOptions_inc_memory env o h1] at h
    injection h with hl hr
    subst hr
    simp only [stepsLeft]
    omega
  · by_cases h2 : o.timeCost < env.timeCostLimitMax
    · rw [applyNextOptions_inc_time env o (by omega) h2] at h
      injection h with hl hr
      subst hr
      simp only [stepsLeft]
      have hT : env.timeCostLimitMax - o.timeCost =
          (env.timeCostLimitMax - (o.timeCost + 1)) + 1 := by omega
      rw [hT, Nat.add_mul, Nat.one_mul]
      omega
    · rw [applyNextOptions_exhausted env o (by omega) (by omega)] at h
      exact absurd (congrArg Prod.fst h) (by simp)

/-- A march run ends by its own stopping conditions given fuel beyond
`stepsLeft` of the starting options, with at most stepsLeft + 1 samples. -/
theorem run_terminates (env : CalibEnv) (budget : Nat) (cb : Timing → Bool)
    (times : Nat → Nat) (fuel : Nat)
    (h : stepsLeft env ⟨env.startMemoryCost, env.startTimeCost⟩ < fuel) :
    (run env budget cb times fuel).2 = true ∧
    (run env budget cb times fuel).1.length ≤
      stepsLeft env ⟨env.startMemoryCost, env.startTimeCost⟩ + 1 := by
  have hmain := runLoop_completes (mkTiming env) cb
    (fun o _ => applyNextOptions env o)
    (fun _ t => Nat.ble budget t.computeTimeMs)
    (stepsLeft env)
    (fun st t st' hstep => applyNextOptions_decreases env st st' hstep)
    times fuel 0
    ⟨env.startMemoryCost, env.startTimeCost⟩ [] h
  simpa [run] using hmain

/-- With an always-true callback, zero measured durations and a positive
budget, a march run sweeps the whole remaining parameter space: it ends
with exactly stepsLeft + 1 measurements. -/
theorem run_full_sweep (env : CalibEnv) (budget : Nat)
    (hdm : env.startMemoryCost ≤ env.memoryCostMax) (hb : 1 ≤ budget) :
    ∀ fuel i o acc, o.memoryCost ≤ env.memoryCostMax →
      stepsLeft env o < fuel →
      (runLoop (mkTiming env) (fun _ => true)
          (fun o _ => applyNextOptions env o)
          (fun _ t => Nat.ble budget t.computeTimeMs)
          (fun _ => 0) fuel i o acc).1.length = acc.length + stepsLeft env o + 1 ∧
      (runLoop (mkTiming env) (fun _ => true)
          (fun o _ => applyNextOptions env o)
          (fun _ t => Nat.ble budget t.computeTimeMs)
          (fun _ => 0) fuel i o acc).2 = true := by
  intro fuel
  induction fuel with
  | zero => intro i o acc hm h; exact absurd h (Nat.not_lt_zero _)
  | succ n ih =>
    intro i o acc hm h
    have hdone : Nat.ble budget (mkTiming env o 0).computeTimeMs = false := by
      simp only [mkTiming]
      cases hble : Nat.ble budget 0
      · rfl
      · rw [Nat.ble_eq] at hble
        omega
    by_cases h1 : o.memoryCost < env.memoryCostMax
    · have hsl : stepsLeft env o = stepsLeft env ⟨o.memoryCost + 1, o.timeCost⟩ + 1 := by
        simp only [stepsLeft]
        omega
      have hrec := ih (i + 1) ⟨o.memoryCost + 1, o.timeCost⟩ (acc ++ [mkTiming env o 0])
        (by simpa using h1) (by omega)
      simp only [runLoop, applyNextOptions_inc_memory env o h1, hdone,
        Bool.true_eq_false, if_false, if_neg (Bool.false_ne_true)]
      refine ⟨?_, hrec.2⟩
      rw [hrec.1]
      simp only [List.length_append, List.length_cons, List.length_nil]
      omega
    · by_cases h2 : o.timeCost < env.timeCostLimitMax
      · have hsl : stepsLeft env o =
            stepsLeft env ⟨env.startMemoryCost, o.timeCost + 1⟩ + 1 := by
          simp only [stepsLeft]
          have hT : env.timeCostLimitMax - o.timeCost =
              (env.timeCostLimitMax - (o.timeCost + 1)) + 1 := by omega
          rw [hT, Nat.add_mul, Nat.one_mul]
          omega
        have hrec := ih (i + 1) ⟨env.startMemoryCost, o.timeCost + 1⟩
          (acc ++ [mkTiming env o 0]) (by simpa using hdm) (by omega)
        simp only [runLoop, applyNextOptions_inc_time env o (by omega) h2, hdone,
          Bool.true_eq_false, if_false, if_neg (Bool.false_ne_true)]
        refine ⟨?_, hrec.2⟩
        rw [hrec.1]
        simp only [List.length_append, List.length_cons, List.length_nil]
        omega
      · have hsl : stepsLeft env o = 0 := by
          simp only [stepsLeft]
          have hT : env.timeCostLimitMax - o.timeCost = 0 := by omega
          rw [hT, Nat.zero_mul]
          omega
        simp only [runLoop, applyNextOptions_exhausted env o (by omega) (by omega),
          Bool.true_eq_false, if_false]
        refine ⟨?_, by trivial⟩
        simp only [List.length_append, List.length_cons, List.length_nil]
        omega

end MaxMemoryMarchStrategy

namespace ClosestMatchStrategy

/-- On a second consecutive overshoot, the staircase stops. -/
theorem applyNextOptions_double_overshoot (env : CalibEnv) (budget : Nat)
    (t : Timing) (st : CMState) (h1 : budget ≤ t.computeTimeMs)
    (h2 : st.lastOvershot = true) :
    applyNextOptions env budget t st = (false, { st with isDone := true }) := by
  unfold applyNextOptions
  rw [if_pos h1, if_pos h2]

/-- On a first overshoot below the memory limit, the staircase advances
memoryCost and resets timeCost to the starting value. -/
theorem applyNextOptions_overshoot_advance (env : CalibEnv) (budget : Nat)
    (t : Timing) (st : CMState) (h1 : budget ≤ t.computeTimeMs)
    (h2 : st.lastOvershot = false) (h3 : st.opts.memoryCost < env.memoryCostLimitMax) :
    applyNextOptions env budget t st = (true,
      { st with opts := ⟨st.opts.memoryCost + 1, env.startTimeCost⟩,
                lastOvershot := true }) := by
  unfold applyNextOptions
  rw [if_pos h1, if_neg (by simp [h2]), if_pos h3]

/-- On a first overshoot at the memory limit, the staircase stops. -/
theorem applyNextOptions_overshoot_at_limit (env : CalibEnv) (budget : Nat)
    (t : Timing) (st : CMState) (h1 : budget ≤ t.computeTimeMs)
    (h2 : st.lastOvershot = false) (h3 : env.memoryCostLimitMax ≤ st.opts.memoryCost) :
    applyNextOptions env budget t st = (false, { st with isDone := true }) := by
  unfold applyNextOptions
  rw [if_pos h1, if_neg (by simp [h2]), if_neg (by omega)]

/-- Under budget below the time limit, the staircase adds time. -/
theorem staircase_inc_time (env : CalibEnv) (budget : Nat)
    (t : Timing) (st : CMState) (h1 : t.computeTimeMs < budget)
    (h2 : st.opts.timeCost < env.timeCostLimitMax) :
    applyNextOptions env budget t st = (true,
      { st with opts := ⟨st.opts.memoryCost, st.opts.timeCost + 1⟩,
                lastOvershot := false }) := by
  unfold applyNextOptions
  rw [if_neg (by omega), if_pos h2]

/-- Under budget at the time limit, the staircase stops. -/
theorem applyNextOptions_time_exhausted (env : CalibEnv) (budget : Nat)
    (t : Timing) (st : CMState) (h1 : t.computeTimeMs < budget)
    (h2 : env.timeCostLimitMax ≤ st.opts.timeCost) :
    applyNextOptions env budget t st = (false,
      { st with isDone := true, lastOvershot := false }) := by
  unfold applyNextOptions
  rw [if_neg (by omega), if_neg (by omega)]

/-- Every continuing step of the staircase strictly decreases `stepsLeft`. -/
theorem staircase_decreases (env : CalibEnv) (budget : Nat) (t : Timing)
    (st st' : CMState) (h : applyNextOptions env budget t st = (true, st')) :
    stepsLeft env st' < stepsLeft env st := by
  by_cases h1 : budget ≤ t.computeTimeMs
  · by_cases h2 : st.lastOvershot = true
    · rw [applyNextOptions_double_overshoot env budget t st h1 h2] at h
      exact absurd (congrArg Prod.fst h) (by simp)
    · rw [Bool.not_eq_true] at h2
      by_cases h3 : st.opts.memoryCost < env.memoryCostLimitMax
      · rw [applyNextOptions_overshoot_advance env budget t st h1 h2 h3] at h
        injection h with hl hr
        subst hr
        simp only [stepsLeft]
        have hM : env.memoryCostLimitMax - st.opts.memoryCost =
            (env.memoryCostLimitMax - (st.opts.memoryCost + 1)) + 1 := by omega
        rw [hM, Nat.add_mul, Nat.one_mul]
        omega
      · rw [applyNextOptions_overshoot_at_limit env budget t st h1 h2 (by omega)] at h
        exact absurd (congrArg Prod.fst h) (by simp)
  · by_cases h2 : st.opts.timeCost < env.timeCostLimitMax
    · rw [staircase_inc_time env budget t st (by omega) h2] at h
      injection h with hl hr
      subst hr
      simp only [stepsLeft]
      omega
    · rw [applyNextOptions_time_exhausted env budget t st (by omega) (by omega)] at h
      exact absurd (congrArg Prod.fst h) (by simp)

/-- A staircase run ends by its own stopping conditions given fuel beyond
`stepsLeft` of the starting state, with at most stepsLeft + 1 samples. -/
theorem staircase_run_terminates (env : CalibEnv) (budget : Nat) (cb : Timing → Bool)
    (times : Nat → Nat) (fuel : Nat)
    (h : stepsLeft env ⟨⟨env.startMemoryCost, env.startTimeCost⟩, false, false⟩ < fuel) :
    (run env budget cb times fuel).2 = true ∧
    (run env budget cb times fuel).1.length ≤
      stepsLeft env ⟨⟨env.startMemoryCost, env.startTimeCost⟩, false, false⟩ + 1 := by
  have hmain := runLoop_completes (fun st e => mkTiming env st.opts e) cb
    (fun st t => applyNextOptions env budget t st)
    (fun st _ => st.isDone)
    (stepsLeft env)
    (fun st t st' hstep => staircase_decreases env budget t st st' hstep)
    times fuel 0
    ⟨⟨env.startMemoryCost, env.startTimeCost⟩, false, false⟩ [] h
  simpa [run] using hmain

end ClosestMatchStrategy

end Measurement

/-! ## Claim theorems: selection engine -/

namespace Selection

/-- Destructing a successful initialization: the series was non-empty and
the instance state is exactly the ranked ordering, an empty memo cache, and
the head/last of the stable time-sort. -/
theorem init_ok {getSorted : List Timing → List Timing} {r : TimingResult}
    {st : SelState}
    (h : LinearSelectionStrategy.init getSorted (some r) = .ok st) :
    r.timings.length ≠ 0 ∧
      st = ⟨getSorted r.timings, [], (r.timings.insertionSort timeLe).head?,
        (r.timings.insertionSort timeLe).getLast?⟩ := by
  simp only [LinearSelectionStrategy.init] at h
  by_cases hlen : r.timings.length = 0
  · rw [if_pos hlen] at h
    exact Except.noConfusion h
  · rw [if_neg hlen] at h
    injection h with h2
    exact ⟨hlen, h2.symm⟩

/-- Claim C7: for every selection strategy, initialization fails with the
EmptySeries error exactly when the series is absent or has zero samples; on
a non-empty series it succeeds, leaving the ranked ordering and the
fastest/slowest samples defined. -/
theorem init_fails_iff_empty_series (getSorted : List Timing → List Timing)
    (timingResults : Option TimingResult) :
    ((∃ e, LinearSelectionStrategy.init getSorted timingResults = .error e) ↔
      timingResults = none ∨ ∃ r, timingResults = some r ∧ r.timings = []) ∧
    (∀ r st, timingResults = some r →
      LinearSelectionStrategy.init getSorted timingResults = .ok st →
      st.sortedTimings = getSorted r.timings ∧ st.fastestTiming.isSome = true ∧
        st.slowestTiming.isSome = true) := by
  constructor
  · constructor
    · rintro ⟨e, he⟩
      cases timingResults with
      | none => exact Or.inl rfl
      | some r =>
        refine Or.inr ⟨r, rfl, ?_⟩
        simp only [LinearSelectionStrategy.init] at he
        by_cases hlen : r.timings.length = 0
        · exact List.length_eq_zero.mp hlen
        · rw [if_neg hlen] at he
          exact Except.noConfusion he
    · rintro (rfl | ⟨r, rfl, hr⟩)
      · exact ⟨"Argument error. No timings found.", rfl⟩
      · refine ⟨"Argument error. No timings found.", ?_⟩
        simp only [LinearSelectionStrategy.init]
        rw [if_pos (by rw [hr]; rfl)]
  · rintro r st rfl hok
    obtain ⟨hlen, rfl⟩ := init_ok hok
    have hne : r.timings.insertionSort timeLe ≠ [] := by
      intro hnil
      apply hlen
      rw [← List.length_insertionSort timeLe r.timings, hnil]
      rfl
    refine ⟨rfl, ?_, ?_⟩
    · simpa using List.head?_isSome.mpr hne
    · simpa using List.getLast?_isSome.mpr hne

/-- Witness for C7 at a concrete input: the empty series fails, a singleton
series succeeds with both extremes defined. -/
theorem init_fails_iff_empty_series_witness :
    (∃ e, LinearSelectionStrategy.init id (some ⟨[]⟩) = .error e) ∧
    ((⟨[tieA], [], some tieA, some tieA⟩ : SelState).sortedTimings = id [tieA] ∧
      (⟨[tieA], [], some tieA, some tieA⟩ : SelState).fastestTiming.isSome = true ∧
      (⟨[tieA], [], some tieA, some tieA⟩ : SelState).slowestTiming.isSome = true) :=
  ⟨(init_fails_iff_empty_series id (some ⟨[]⟩)).1.mpr (Or.inr ⟨⟨[]⟩, rfl, rfl⟩),
    (init_fails_iff_empty_series id (some ⟨[tieA]⟩)).2
      ⟨[tieA]⟩ ⟨[tieA], [], some tieA, some tieA⟩ rfl rfl⟩

/-- Claim C9: after a successful initialization, fastest() has minimal and
slowest() has maximal computeTimeMs over the series; under ties the
earliest-tied sample of the original order is fastest and the latest-tied
is slowest (stable sort). -/
theorem fastest_slowest_extremes (getSorted : List Timing → List Timing)
    (r : TimingResult) (st : SelState)
    (h : LinearSelectionStrategy.init getSorted (some r) = .ok st) :
    ∃ f s, st.fastestTiming = some f ∧ st.slowestTiming = some s ∧
      (∀ y ∈ r.timings, f.computeTimeMs ≤ y.computeTimeMs ∧
        y.computeTimeMs ≤ s.computeTimeMs) ∧
      (r.timings.filter (fun y => y.computeTimeMs == f.computeTimeMs)).head? = some f ∧
      (r.timings.filter (fun y => y.computeTimeMs == s.computeTimeMs)).getLast? = some s := by
  obtain ⟨hlen, rfl⟩ := init_ok h
  have hne : r.timings.insertionSort timeLe ≠ [] := by
    intro hnil
    apply hlen
    rw [← List.length_insertionSort timeLe r.timings, hnil]
    rfl
  obtain ⟨f, hf⟩ := Option.isSome_iff_exists.mp (List.head?_isSome.mpr hne)
  obtain ⟨s, hs⟩ := Option.isSome_iff_exists.mp (List.getLast?_isSome.mpr hne)
  have hhead := head_insertionSort_timeLe hf
  have hlast := getLast_insertionSort_timeLe hs
  exact ⟨f, s, by simpa using hf, by simpa using hs,
    fun y hy => ⟨hhead.1 y hy, hlast.1 y hy⟩, hhead.2, hlast.2⟩

/-- Witness for C9 at a concrete input with a computeTimeMs tie: the
earlier-measured of the two tied samples is fastest, the later is slowest. -/
theorem fastest_slowest_extremes_witness :
    ∃ f s,
      (⟨[tieA, tieB], [], some tieA, some tieB⟩ : SelState).fastestTiming = some f ∧
      (⟨[tieA, tieB], [], some tieA, some tieB⟩ : SelState).slowestTiming = some s ∧
      (∀ y ∈ [tieA, tieB],
        f.computeTimeMs ≤ y.computeTimeMs ∧ y.computeTimeMs ≤ s.computeTimeMs) ∧
      (List.filter (fun y => y.computeTimeMs == f.computeTimeMs)
        [tieA, tieB]).head? = some f ∧
      (List.filter (fun y => y.computeTimeMs == s.computeTimeMs)
        [tieA, tieB]).getLast? = some s :=
  fastest_slowest_extremes id ⟨[tieA, tieB]⟩
    ⟨[tieA, tieB], [], some tieA, some tieB⟩ rfl

/-- Claim C1: freshly initialized with the MaxCost ranking, if any sample
fits the budget then select returns a compliant sample whose hashCost is
maximal among all compliant samples of the series. -/
theorem maxCost_select_maximizes_hashCost (r : TimingResult) (b : Nat)
    (st : SelState)
    (hinit : LinearSelectionStrategy.init MaxCostSelectionStrategy.getSortedTimings
      (some r) = .ok st)
    (x : Timing) (hx : x ∈ r.timings) (hxb : x.computeTimeMs ≤ b) :
    ∃ f, (LinearSelectionStrategy.select st b).1 = some f ∧ f ∈ r.timings ∧
      f.computeTimeMs ≤ b ∧
      ∀ y ∈ r.timings, y.computeTimeMs ≤ b → y.hashCost ≤ f.hashCost := by
  obtain ⟨hlen, rfl⟩ := init_ok hinit
  have hx' : x ∈ r.timings.insertionSort maxCostLe :=
    (List.mem_insertionSort maxCostLe).mpr hx
  have hpx : (fun t => Nat.ble t.computeTimeMs b) x = true := by
    simpa [Nat.ble_eq] using hxb
  obtain ⟨f, hf⟩ := findLast_isSome (fun t => Nat.ble t.computeTimeMs b) hx' hpx
  have hpair : List.Pairwise maxCostLe (r.timings.insertionSort maxCostLe) :=
    List.sorted_insertionSort maxCostLe r.timings
  have hspec := findLast_spec maxCostLe (fun t => Nat.ble t.computeTimeMs b) hpair hf
  refine ⟨f, ?_, (List.mem_insertionSort maxCostLe).mp hspec.2.1,
    by simpa [Nat.ble_eq] using hspec.1, ?_⟩
  · simp only [LinearSelectionStrategy.select,
      MaxCostSelectionStrategy.getSortedTimings, List.lookup_nil]
    rw [hf]
  · intro y hy hyb
    have hy' : y ∈ r.timings.insertionSort maxCostLe :=
      (List.mem_insertionSort maxCostLe).mpr hy
    have hpy : (fun t => Nat.ble t.computeTimeMs b) y = true := by
      simpa [Nat.ble_eq] using hyb
    rcases hspec.2.2 y hy' hpy with rfl | hle
    · exact Nat.le_refl _
    · exact maxCostLe_hashCost hle

/-- Witness for C1 at the spec scenario series (times 50/90/120, costs
10/40/80) and budget 100. -/
theorem maxCost_select_maximizes_hashCost_witness :
    ∃ f, (LinearSelectionStrategy.select
        ⟨[t50, t90, t120], [], some t50, some t120⟩ 100).1 = some f ∧
      f ∈ [t50, t90, t120] ∧ f.computeTimeMs ≤ 100 ∧
      ∀ y ∈ [t50, t90, t120], y.computeTimeMs ≤ 100 → y.hashCost ≤ f.hashCost :=
  maxCost_select_maximizes_hashCost ⟨[t50, t90, t120]⟩ 100
    ⟨[t50, t90, t120], [], some t50, some t120⟩ rfl t50 (by decide) (by decide)

/-- Claim C2: freshly initialized with the ClosestMatch ranking, if any
sample fits the budget then select returns a compliant sample whose
computeTimeMs is the maximum computeTimeMs not exceeding the budget. -/
theorem closestMatch_select_nearest_below (r : TimingResult) (b : Nat)
    (st : SelState)
    (hinit : LinearSelectionStrategy.init
      ClosestMatchSelectionStrategy.getSortedTimings (some r) = .ok st)
    (x : Timing) (hx : x ∈ r.timings) (hxb : x.computeTimeMs ≤ b) :
    ∃ f, (LinearSelectionStrategy.select st b).1 = some f ∧ f ∈ r.timings ∧
      f.computeTimeMs ≤ b ∧
      ∀ y ∈ r.timings, y.computeTimeMs ≤ b → y.computeTimeMs ≤ f.computeTimeMs := by
  obtain ⟨hlen, rfl⟩ := init_ok hinit
  have hx' : x ∈ r.timings.insertionSort timeLe :=
    (List.mem_insertionSort timeLe).mpr hx
  have hpx : (fun t => Nat.ble t.computeTimeMs b) x = true := by
    simpa [Nat.ble_eq] using hxb
  obtain ⟨f, hf⟩ := findLast_isSome (fun t => Nat.ble t.computeTimeMs b) hx' hpx
  have hpair : List.Pairwise timeLe (r.timings.insertionSort timeLe) :=
    List.sorted_insertionSort timeLe r.timings
  have hspec := findLast_spec timeLe (fun t => Nat.ble t.computeTimeMs b) hpair hf
  refine ⟨f, ?_, (List.mem_insertionSort timeLe).mp hspec.2.1,
    by simpa [Nat.ble_eq] using hspec.1, ?_⟩
  · simp only [LinearSelectionStrategy.select,
      ClosestMatchSelectionStrategy.getSortedTimings, List.lookup_nil]
    rw [hf]
  · intro y hy hyb
    have hy' : y ∈ r.timings.insertionSort timeLe :=
      (List.mem_insertionSort timeLe).mpr hy
    have hpy : (fun t => Nat.ble t.computeTimeMs b) y = true := by
      simpa [Nat.ble_eq] using hyb
    rcases hspec.2.2 y hy' hpy with rfl | hle
    · exact Nat.le_refl _
    · exact timeLe_computeTimeMs hle

/-- Witness for C2 at the spec scenario series and budget 100. -/
theorem closestMatch_select_nearest_below_witness :
    ∃ f, (LinearSelectionStrategy.select
        ⟨[t50, t90, t120], [], some t50, some t120⟩ 100).1 = some f ∧
      f ∈ [t50, t90, t120] ∧ f.computeTimeMs ≤ 100 ∧
      ∀ y ∈ [t50, t90, t120], y.computeTimeMs ≤ 100 →
        y.computeTimeMs ≤ f.computeTimeMs :=
  closestMatch_select_nearest_below ⟨[t50, t90, t120]⟩ 100
    ⟨[t50, t90, t120], [], some t50, some t120⟩ rfl t50 (by decide) (by decide)

/-- Claim C8: when the budget is below every sample's computeTimeMs, the
current version of select deterministically returns the fastest sample
(leaving the instance state unchanged, so repeated calls agree), while the
older source version deterministically raises the no-sample-within-budget
error.  The ranking is any permutation of the series, which covers every
concrete selection strategy. -/
theorem select_below_fastest_deterministic (getSorted : List Timing → List Timing)
    (hgs : ∀ l, (getSorted l).Perm l) (r : TimingResult) (st : SelState) (b : Nat)
    (hinit : LinearSelectionStrategy.init getSorted (some r) = .ok st)
    (hlow : ∀ y ∈ r.timings, b < y.computeTimeMs) :
    LinearSelectionStrategy.select st b = (st.fastestTiming, st) ∧
    st.fastestTiming.isSome = true ∧
    LinearSelectionStrategy.selectV2 st b =
      .error ("No timings found with less than " ++ toString b ++
        "ms compute time.") := by
  obtain ⟨hlen, rfl⟩ := init_ok hinit
  have hnone : findLast (fun t => Nat.ble t.computeTimeMs b)
      (getSorted r.timings) = none := by
    apply findLast_eq_none
    intro y hy
    have hmem : y ∈ r.timings := ((hgs r.timings).mem_iff).mp hy
    have hgt := hlow y hmem
    cases hble : Nat.ble y.computeTimeMs b
    · rfl
    · rw [Nat.ble_eq] at hble
      omega
  have hne : r.timings.insertionSort timeLe ≠ [] := by
    intro hnil
    apply hlen
    rw [← List.length_insertionSort timeLe r.timings, hnil]
    rfl
  refine ⟨?_, by simpa using List.head?_isSome.mpr hne, ?_⟩
  · simp only [LinearSelectionStrategy.select, List.lookup_nil]
    rw [hnone]
  · simp only [LinearSelectionStrategy.selectV2, List.lookup_nil]
    rw [hnone]

/-- Witness for C8 at a concrete series with budget 0 below both samples. -/
theorem select_below_fastest_deterministic_witness :
    LinearSelectionStrategy.select ⟨[tieA, slowB], [], some tieA, some slowB⟩ 0 =
      ((⟨[tieA, slowB], [], some tieA, some slowB⟩ : SelState).fastestTiming,
       ⟨[tieA, slowB], [], some tieA, some slowB⟩) ∧
    (⟨[tieA, slowB], [], some tieA, some slowB⟩ : SelState).fastestTiming.isSome = true ∧
    LinearSelectionStrategy.selectV2 ⟨[tieA, slowB], [], some tieA, some slowB⟩ 0 =
      .error ("No timings found with less than " ++ toString 0 ++
        "ms compute time.") :=
  select_below_fastest_deterministic ClosestMatchSelectionStrategy.getSortedTimings
    (fun l => List.perm_insertionSort timeLe l) ⟨[tieA, slowB]⟩
    ⟨[tieA, slowB], [], some tieA, some slowB⟩ 0 rfl (by decide)

end Selection

/-! ## Claim theorems: calibration engine and orchestrator -/

namespace Measurement

/-- Helper for the C5 counterexample: with all limits of range n+1 (minimum
1, maximum n+2), defaults at the minimum, budget 1 and zero measured
durations, the march run finishes after exactly stepsLeft + 1 measurements
(a full quadratic sweep). -/
theorem square_sweep_length (n : Nat) :
    (MaxMemoryMarchStrategy.run ⟨1, 1, 1, n + 2, n + 2, n + 2⟩ 1 (fun _ => true)
        (fun _ => 0)
        (MaxMemoryMarchStrategy.stepsLeft ⟨1, 1, 1, n + 2, n + 2, n + 2⟩ ⟨1, 1⟩ + 1)).1.length =
      MaxMemoryMarchStrategy.stepsLeft ⟨1, 1, 1, n + 2, n + 2, n + 2⟩ ⟨1, 1⟩ + 1 ∧
    (MaxMemoryMarchStrategy.run ⟨1, 1, 1, n + 2, n + 2, n + 2⟩ 1 (fun _ => true)
        (fun _ => 0)
        (MaxMemoryMarchStrategy.stepsLeft ⟨1, 1, 1, n + 2, n + 2, n + 2⟩ ⟨1, 1⟩ + 1)).2 = true := by
  have hmain := MaxMemoryMarchStrategy.run_full_sweep ⟨1, 1, 1, n + 2, n + 2, n + 2⟩ 1
    (show (1 : Nat) ≤ n + 2 by omega) (Nat.le_refl 1)
    (MaxMemoryMarchStrategy.stepsLeft ⟨1, 1, 1, n + 2, n + 2, n + 2⟩ ⟨1, 1⟩ + 1) 0
    ⟨1, 1⟩ [] (show (1 : Nat) ≤ n + 2 by omega) (Nat.lt_succ_self _)
  constructor
  · have h1 := hmain.1
    simpa [MaxMemoryMarchStrategy.run] using h1
  · have h2 := hmain.2
    simpa [MaxMemoryMarchStrategy.run] using h2

/-- Counterexample to claim C3: in a march run (defaults timeCost 3 and
memoryCost 12, computed ceiling 13, timeCost limit 5), the series contains
a measurement whose timeCost exceeds its starting value while memoryCost is
strictly below the ceiling — the policy resets memoryCost to the default
whenever it increments timeCost. -/
theorem march_measurement_above_start_below_ceiling :
    ∃ t ∈ (MaxMemoryMarchStrategy.run ⟨3, 12, 2, 13, 5, 32⟩ 1000 (fun _ => true)
      (fun _ => 0) 10).1, 3 < t.options.timeCost ∧ t.options.memoryCost < 13 := by
  decide

/-- Claim C3 (amended): the march pushes memoryCost to the computed ceiling
before timeCost is ever increased; each step at the ceiling with timeCost
below its Limit increments timeCost and resets memoryCost to the default
(so measurements with increased timeCost restart below the ceiling); the
step reports exhaustion exactly when memoryCost is at the ceiling and
timeCost at its Limit. -/
theorem march_policy_step_cases (env : CalibEnv) (o : OptState) :
    (o.memoryCost < env.memoryCostMax →
      MaxMemoryMarchStrategy.applyNextOptions env o =
        (true, ⟨o.memoryCost + 1, o.timeCost⟩)) ∧
    (env.memoryCostMax ≤ o.memoryCost → o.timeCost < env.timeCostLimitMax →
      MaxMemoryMarchStrategy.applyNextOptions env o =
        (true, ⟨env.startMemoryCost, o.timeCost + 1⟩)) ∧
    (env.memoryCostMax ≤ o.memoryCost → env.timeCostLimitMax ≤ o.timeCost →
      MaxMemoryMarchStrategy.applyNextOptions env o = (false, o)) :=
  ⟨fun h => MaxMemoryMarchStrategy.applyNextOptions_inc_memory env o h,
   fun h1 h2 => MaxMemoryMarchStrategy.applyNextOptions_inc_time env o h1 h2,
   fun h1 h2 => MaxMemoryMarchStrategy.applyNextOptions_exhausted env o h1 h2⟩

/-- Witness for the amended C3 at a concrete state below the ceiling. -/
theorem march_policy_step_cases_witness :
    MaxMemoryMarchStrategy.applyNextOptions ⟨3, 12, 2, 13, 5, 32⟩ ⟨12, 3⟩ =
      (true, ⟨13, 3⟩) :=
  (march_policy_step_cases ⟨3, 12, 2, 13, 5, 32⟩ ⟨12, 3⟩).1 (by decide)

/-- Counterexample to claim C4: a staircase run that ends on two consecutive
overshoots where the earlier memory level overshot only on its second
timeCost attempt: none of the claim's three ending conditions (two
consecutive memory levels overshooting on their first attempt, overshoot at
the memoryCost Limit, timeCost Limit without overshoot) holds, yet the
search ends. -/
theorem staircase_ends_without_claimed_conditions :
    (ClosestMatchStrategy.run ⟨3, 12, 2, 30, 10, 32⟩ 100 (fun _ => true)
      (fun i => if i = 0 then 50 else 150) 10).2 = true ∧
    ClosestMatchStrategy.twoConsecutiveFirstAttemptOvershoot 100
      (ClosestMatchStrategy.run ⟨3, 12, 2, 30, 10, 32⟩ 100 (fun _ => true)
        (fun i => if i = 0 then 50 else 150) 10).1 = false ∧
    ClosestMatchStrategy.overshootAtMemoryLimit ⟨3, 12, 2, 30, 10, 32⟩ 100
      (ClosestMatchStrategy.run ⟨3, 12, 2, 30, 10, 32⟩ 100 (fun _ => true)
        (fun i => if i = 0 then 50 else 150) 10).1 = false ∧
    ClosestMatchStrategy.timeLimitWithoutOvershoot ⟨3, 12, 2, 30, 10, 32⟩ 100
      (ClosestMatchStrategy.run ⟨3, 12, 2, 30, 10, 32⟩ 100 (fun _ => true)
        (fun i => if i = 0 then 50 else 150) 10).1 = false := by
  decide

/-- Claim C4 (amended): the staircase policy, case by case — on an overshoot
immediately after another overshoot it stops; on a first overshoot below
the memoryCost Limit it increments memoryCost and resets timeCost to the
starting value; on a first overshoot at the memoryCost Limit it stops;
under budget it increments timeCost, stopping at the timeCost Limit.  The
search therefore ends exactly on two consecutive overshooting measurements
(the second necessarily being the first attempt at its memory level), an
overshoot at the memoryCost Limit, or the timeCost Limit without
overshoot. -/
theorem staircase_policy_step_cases (env : CalibEnv) (budget : Nat) (t : Timing)
    (st : ClosestMatchStrategy.CMState) :
    (budget ≤ t.computeTimeMs → st.lastOvershot = true →
      ClosestMatchStrategy.applyNextOptions env budget t st =
        (false, ⟨st.opts, true, st.lastOvershot⟩)) ∧
    (budget ≤ t.computeTimeMs → st.lastOvershot = false →
      st.opts.memoryCost < env.memoryCostLimitMax →
      ClosestMatchStrategy.applyNextOptions env budget t st =
        (true, ⟨⟨st.opts.memoryCost + 1, env.startTimeCost⟩, st.isDone, true⟩)) ∧
    (budget ≤ t.computeTimeMs → st.lastOvershot = false →
      env.memoryCostLimitMax ≤ st.opts.memoryCost →
      ClosestMatchStrategy.applyNextOptions env budget t st =
        (false, ⟨st.opts, true, st.lastOvershot⟩)) ∧
    (t.computeTimeMs < budget → st.opts.timeCost < env.timeCostLimitMax →
      ClosestMatchStrategy.applyNextOptions env budget t st =
        (true, ⟨⟨st.opts.memoryCost, st.opts.timeCost + 1⟩, st.isDone, false⟩)) ∧
    (t.computeTimeMs < budget → env.timeCostLimitMax ≤ st.opts.timeCost →
      ClosestMatchStrategy.applyNextOptions env budget t st =
        (false, ⟨st.opts, true, false⟩)) :=
  ⟨fun h1 h2 => ClosestMatchStrategy.applyNextOptions_double_overshoot env budget t st h1 h2,
   fun h1 h2 h3 =>
     ClosestMatchStrategy.applyNextOptions_overshoot_advance env budget t st h1 h2 h3,
   fun h1 h2 h3 =>
     ClosestMatchStrategy.applyNextOptions_overshoot_at_limit env budget t st h1 h2 h3,
   fun h1 h2 => ClosestMatchStrategy.staircase_inc_time env budget t st h1 h2,
   fun h1 h2 => ClosestMatchStrategy.applyNextOptions_time_exhausted env budget t st h1 h2⟩

/-- Witness for the amended C4 at a concrete first overshoot: memoryCost is
incremented and timeCost reset to the starting value. -/
theorem staircase_policy_step_cases_witness :
    ClosestMatchStrategy.applyNextOptions ⟨3, 12, 2, 30, 10, 32⟩ 100
      ⟨⟨3, 12, 2⟩, 150, 72⟩ ⟨⟨12, 3⟩, false, false⟩ = (true, ⟨⟨13, 3⟩, false, true⟩) :=
  (staircase_policy_step_cases ⟨3, 12, 2, 30, 10, 32⟩ 100 ⟨⟨3, 12, 2⟩, 150, 72⟩
    ⟨⟨12, 3⟩, false, false⟩).2.1 (by decide) (by decide) (by decide)

/-- Claim C5 (amended): both calibration policies terminate by their own
stopping conditions within stepsLeft + 1 measurements, where stepsLeft is
the product-shaped bound (timeCost range + 1) x (memoryCost range + 1) of
the respective strategy, not the additive bound of the claim. -/
theorem calibration_terminates_bounded (env : CalibEnv) (budget : Nat)
    (cb : Timing → Bool) (times : Nat → Nat) (fuel : Nat) :
    (MaxMemoryMarchStrategy.stepsLeft env ⟨env.startMemoryCost, env.startTimeCost⟩ < fuel →
      (MaxMemoryMarchStrategy.run env budget cb times fuel).2 = true ∧
      (MaxMemoryMarchStrategy.run env budget cb times fuel).1.length ≤
        MaxMemoryMarchStrategy.stepsLeft env
          ⟨env.startMemoryCost, env.startTimeCost⟩ + 1) ∧
    (ClosestMatchStrategy.stepsLeft env
        ⟨⟨env.startMemoryCost, env.startTimeCost⟩, false, false⟩ < fuel →
      (ClosestMatchStrategy.run env budget cb times fuel).2 = true ∧
      (ClosestMatchStrategy.run env budget cb times fuel).1.length ≤
        ClosestMatchStrategy.stepsLeft env
          ⟨⟨env.startMemoryCost, env.startTimeCost⟩, false, false⟩ + 1) :=
  ⟨fun h => MaxMemoryMarchStrategy.run_terminates env budget cb times fuel h,
   fun h => ClosestMatchStrategy.staircase_run_terminates env budget cb times fuel h⟩

/-- Witness for the amended C5 at a concrete environment and fuel. -/
theorem calibration_terminates_bounded_witness :
    (MaxMemoryMarchStrategy.run ⟨1, 1, 1, 3, 3, 3⟩ 1 (fun _ => true)
      (fun _ => 0) 20).2 = true ∧
    (MaxMemoryMarchStrategy.run ⟨1, 1, 1, 3, 3, 3⟩ 1 (fun _ => true)
      (fun _ => 0) 20).1.length ≤
      MaxMemoryMarchStrategy.stepsLeft ⟨1, 1, 1, 3, 3, 3⟩ ⟨1, 1⟩ + 1 :=
  (calibration_terminates_bounded ⟨1, 1, 1, 3, 3, 3⟩ 1 (fun _ => true)
    (fun _ => 0) 20).1 (by decide)

/-- Counterexample to claim C5 as stated: no constant c makes the number of
measurements of a finished march run bounded by (memoryCost Limit range) +
(timeCost Limit range) + c; with square limits of range c+1 the run
performs a full (c+2)^2-measurement sweep, which exceeds the additive
bound. -/
theorem calibration_iterations_not_additively_bounded :
    ¬ ∃ c : Nat, ∀ (env : CalibEnv) (memoryCostMin timeCostMin budget : Nat)
        (cb : Timing → Bool) (times : Nat → Nat) (fuel : Nat),
        memoryCostMin ≤ env.startMemoryCost → timeCostMin ≤ env.startTimeCost →
        env.memoryCostMax ≤ env.memoryCostLimitMax →
        (MaxMemoryMarchStrategy.run env budget cb times fuel).2 = true →
        (MaxMemoryMarchStrategy.run env budget cb times fuel).1.length ≤
          (env.memoryCostLimitMax - memoryCostMin) +
            (env.timeCostLimitMax - timeCostMin) + c := by
  rintro ⟨c, h⟩
  obtain ⟨hlen, hfin⟩ := square_sweep_length c
  have hb := h ⟨1, 1, 1, c + 2, c + 2, c + 2⟩ 1 1 1 (fun _ => true) (fun _ => 0)
    (MaxMemoryMarchStrategy.stepsLeft ⟨1, 1, 1, c + 2, c + 2, c + 2⟩ ⟨1, 1⟩ + 1)
    (Nat.le_refl 1) (Nat.le_refl 1) (Nat.le_refl (c + 2)) hfin
  rw [hlen] at hb
  have hsl : MaxMemoryMarchStrategy.stepsLeft ⟨1, 1, 1, c + 2, c + 2, c + 2⟩ ⟨1, 1⟩ =
      (c + 1) * (c + 2) + (c + 1) := by
    simp only [MaxMemoryMarchStrategy.stepsLeft]
    have h1 : c + 2 - 1 = c + 1 := by omega
    rw [h1]
  rw [hsl] at hb
  have hmul : (c + 1) * 2 ≤ (c + 1) * (c + 2) :=
    Nat.mul_le_mul_left (c + 1) (by omega)
  simp only at hb
  omega

end Measurement

/-- Claim C10: with any fuel at all, a calibration run appends one sample
before consulting any stopping condition, so its series is non-empty and
the orchestrator's subsequent initialization of the selection strategy on
it always succeeds. -/
theorem run_always_yields_sample (strategy : TimingStrategyType)
    (selectionStrategy : SelectionStrategyType) (env : Measurement.CalibEnv)
    (budget : Nat) (cb : Timing → Bool) (times : Nat → Nat) (fuel : Nat)
    (h : 1 ≤ fuel) :
    1 ≤ (generateTimings strategy env budget cb times fuel).1.length ∧
    ∃ st, Selection.LinearSelectionStrategy.init selectionStrategy.getSortedTimings
      (some ⟨(generateTimings strategy env budget cb times fuel).1⟩) = .ok st := by
  have hlen : 1 ≤ (generateTimings strategy env budget cb times fuel).1.length := by
    cases strategy
    · exact Measurement.runLoop_nonempty _ _ _ _ _ fuel 0 _ h
    · exact Measurement.runLoop_nonempty _ _ _ _ _ fuel 0 _ h
  refine ⟨hlen, ?_⟩
  rcases hres : Selection.LinearSelectionStrategy.init selectionStrategy.getSortedTimings
      (some ⟨(generateTimings strategy env budget cb times fuel).1⟩) with e | st
  · exfalso
    simp only [Selection.LinearSelectionStrategy.init] at hres
    rw [if_neg (show ¬((generateTimings strategy env budget cb times
      fuel).1.length = 0) by omega)] at hres
    exact Except.noConfusion hres
  · exact ⟨st, rfl⟩

/-- Witness for C10 at a concrete run of the default strategies. -/
theorem run_always_yields_sample_witness :
    1 ≤ (generateTimings .ClosestMatch ⟨1, 1, 1, 3, 3, 3⟩ 1 (fun _ => true)
      (fun _ => 5) 5).1.length ∧
    ∃ st, Selection.LinearSelectionStrategy.init
      SelectionStrategyType.MaxCost.getSortedTimings
      (some ⟨(generateTimings .ClosestMatch ⟨1, 1, 1, 3, 3, 3⟩ 1 (fun _ => true)
        (fun _ => 5) 5).1⟩) = .ok st :=
  run_always_yields_sample .ClosestMatch .MaxCost ⟨1, 1, 1, 3, 3, 3⟩ 1
    (fun _ => true) (fun _ => 5) 5 (by omega)

/-- Claim C6: a successful orchestrator call stores its chosen options under
the (budget, timing-strategy name, selection-strategy name) key, so a second
call with the same key returns the identical options and identical cache
while performing zero calibration measurements — even under different
environment, measured durations or fuel. -/
theorem orchestrator_cache_idempotent (optionsCache : List (String × Options))
    (maxMs : Nat) (timingStrategy : TimingStrategyType)
    (selectionStrategy : SelectionStrategyType) (env env' : Measurement.CalibEnv)
    (times times' : Nat → Nat) (fuel fuel' : Nat) (o1 : Options)
    (c1 : List (String × Options)) (n1 : Nat)
    (h : getMaxOptionsWithStrategies optionsCache maxMs timingStrategy
      selectionStrategy env times fuel = .ok (o1, c1, n1)) :
    getMaxOptionsWithStrategies c1 maxMs timingStrategy selectionStrategy env'
      times' fuel' = .ok (o1, c1, 0) := by
  simp only [getMaxOptionsWithStrategies] at h ⊢
  split at h
  · -- cache hit on the first call
    next o hlook =>
    injection h with h2
    obtain rfl : o1 = o := (congrArg Prod.fst h2).symm
    obtain rfl : c1 = optionsCache := (congrArg (fun p => p.2.1) h2).symm
    rw [hlook]
  · -- cache miss on the first call
    next hlook =>
    split at h
    · exact Except.noConfusion h
    · next st hinit =>
      split at h
      · exact Except.noConfusion h
      · next t hsel =>
        injection h with h2
        obtain rfl : o1 = t.options := (congrArg Prod.fst h2).symm
        obtain rfl : c1 = (optionsCacheKey maxMs timingStrategy.name
            selectionStrategy.name, t.options) :: optionsCache :=
          (congrArg (fun p => p.2.1) h2).symm
        rw [List.lookup_cons]
        simp

/-- Witness for C6: a first orchestrator call populates the cache and the
second call with the same key returns the same options without measuring. -/
theorem orchestrator_cache_idempotent_witness :
    getMaxOptionsWithStrategies [("1:closestmatch:maxcost", ⟨1, 1, 1⟩)] 1
      .ClosestMatch .MaxCost ⟨1, 1, 1, 3, 3, 3⟩ (fun _ => 5) 5 =
      .ok (⟨1, 1, 1⟩, [("1:closestmatch:maxcost", ⟨1, 1, 1⟩)], 0) :=
  orchestrator_cache_idempotent [] 1 .ClosestMatch .MaxCost ⟨1, 1, 1, 3, 3, 3⟩
    ⟨1, 1, 1, 3, 3, 3⟩ (fun _ => 5) (fun _ => 5) 5 5 ⟨1, 1, 1⟩
    [("1:closestmatch:maxcost", ⟨1, 1, 1⟩)] 2 rfl

end Argon2TheMax
